import Mathlib

/-!
Verification of the log ingestion and aggregation core of the `timeline`
repository (a Log4Net log analyzer).  The definitions below are a shallow
embedding of the TypeScript source:

* `parseLogLine`, `isStackTraceLine`, `normalizeLogLevel`, `processLines`
  embed `src/components/FileUpload.tsx` (`parseLogLine`, `isStackTraceLine`,
  `normalizeLogLevel`, the per-file loop of `handleUpload`);
* `fileStatsOf` embeds the counting pass of `handleFileSelect`;
* `minTs`/`maxTs`/`intervalStarts`/`assignLog`/`timelineChartData` embed
  `startDate`/`endDate` and `chartData` of `src/components/Timeline.tsx`;
* `addToGroups`/`buildGroups`/`sortByCountDesc`/`messageGroups` embed
  `messageGroups` of `ErrorList`;
* `hasTemporalOverlap` embeds `hasTemporalOverlap` of `ErrorList`.

Timestamps are modelled as integer milliseconds since the Unix epoch.
JavaScript `Date` objects enter only through `parseLogLine`, whose arithmetic
(`new Date(literal)` in the browser zone followed by
`setMinutes(getMinutes() - getTimezoneOffset() - offsetMinutes)`) makes the
browser-zone terms cancel, leaving `literal-as-UTC minus offsetMinutes`;
that residue is what the embedding computes.
-/

/-- Log level of an entry; the TS type is the union `'ERR' | 'WRN'`. -/
inductive Level where
  | err : Level
  | wrn : Level
deriving DecidableEq, Repr

/-- One parsed log entry, the TS interface
`LogData {timestamp: Date; message: string; file: string; level: 'ERR'|'WRN'}`. -/
structure LogData where
  timestamp : Int
  message : String
  file : String
  level : Level
deriving DecidableEq, Repr

/-- Whitespace as removed by JavaScript `String.prototype.trim` (the code
points that can actually occur around the lines of a text file). -/
def jsWS (c : Char) : Bool :=
  c = ' ' || c = '\t' || c = '\n' || c = '\r' ||
  c = '\u000B' || c = '\u000C' || c = '\u00A0' || c = '\uFEFF'

/-- JavaScript `String.prototype.trim`: drop leading and trailing whitespace. -/
def jsTrim (s : String) : String :=
  ⟨(((s.data.dropWhile jsWS).reverse.dropWhile jsWS).reverse)⟩

/-- `matchHead pat l` holds when `pat` is an initial segment of `l`
(JavaScript `String.prototype.startsWith` on char lists). -/
def matchHead : List Char → List Char → Bool
  | [], _ => true
  | _ :: _, [] => false
  | a :: asx, b :: bs => a = b && matchHead asx bs

/-- `hasSubList pat l` holds when `pat` occurs contiguously inside `l`
(JavaScript `String.prototype.includes` on char lists). -/
def hasSubList (pat : List Char) : List Char → Bool
  | [] => matchHead pat []
  | l@(_ :: rest) => matchHead pat l || hasSubList pat rest

/-- JavaScript `s.includes(pat)`. -/
def hasSubstring (s pat : String) : Bool :=
  hasSubList pat.data s.data

/-- JavaScript `s.startsWith(pat)`. -/
def startsWithStr (s pat : String) : Bool :=
  matchHead pat.data s.data

/-- `isStackTraceLine` of `FileUpload.tsx` (lines 107-114): the continuation
predicates `trim().startsWith("at ")`, `includes("   at ")`,
`includes("--- End of ")`, `includes(" ---> ")`, and the regex test
`^[\s]*---` (leading whitespace followed by three dashes). -/
def isStackTraceLine (line : String) : Bool :=
  startsWithStr (jsTrim line) "at " ||
  hasSubstring line "   at " ||
  hasSubstring line "--- End of " ||
  hasSubstring line " ---> " ||
  matchHead "---".data (line.data.dropWhile jsWS)

/-- `normalizeLogLevel` of `FileUpload.tsx` (lines 116-122): only the exact
tokens `ERR` and `WRN` produce a level. -/
def normalizeLogLevel (level : String) : Option Level :=
  if level = "ERR" then some Level.err
  else if level = "WRN" then some Level.wrn
  else none

/-- Numeric value of a decimal digit character. -/
def dv (c : Char) : Nat := c.toNat - 48

/-- Characters the JavaScript regex `.` matches (anything but a line
terminator; `\n` cannot occur because lines were split on it). -/
def dotOkB (c : Char) : Bool :=
  c ≠ '\n' && c ≠ '\r' && c ≠ '\u2028' && c ≠ '\u2029'

/-- The lazy group `\[(.*?)\] ` of the header regex: after the `[`, the level
token runs up to the first occurrence of `] ` and the message is the rest. -/
def splitLevelMsg : List Char → Option (List Char × List Char)
  | [] => none
  | ']' :: ' ' :: rest => some ([], rest)
  | c :: rest =>
    if dotOkB c then (splitLevelMsg rest).map (fun p => (c :: p.1, p.2))
    else none

/-- Days from 1970-01-01 of a proleptic-Gregorian civil date (Howard
Hinnant's `days_from_civil`), with out-of-range month/day components combined
arithmetically (rollover).  The in-range case is all any claim depends on. -/
def daysFromCivil (year month day : Int) : Int :=
  let ym := year * 12 + (month - 1)
  let y0 := Int.fdiv ym 12
  let m0 := Int.fmod ym 12 + 1
  let y1 := if m0 ≤ 2 then y0 - 1 else y0
  let era := Int.fdiv y1 400
  let yoe := y1 - era * 400
  let mp := if m0 > 2 then m0 - 3 else m0 + 9
  let doy := Int.fdiv (153 * mp + 2) 5 + day - 1
  let doe := yoe * 365 + Int.fdiv yoe 4 - Int.fdiv yoe 100 + doy
  era * 146097 + doe - 719468

/-- Milliseconds since the epoch of a date-time literal read as UTC. -/
def literalMs (y mo d h mi s ms : Nat) : Int :=
  daysFromCivil y mo d * 86400000 +
    ((h : Int) * 3600000 + (mi : Int) * 60000 + (s : Int) * 1000 + (ms : Int))

/-- The `offsetMinutes` computation of `parseLogLine`:
`timezone.split(':')` yields a signed hour part (`Number("-02") = -2`) and an
unsigned minute part, and the whole sum is then multiplied by the sign again
(`timezone.startsWith('+') ? 1 : -1`), so for negative offsets the hour sign
is applied twice. -/
def offsetMinutesJS (sg : Char) (oh om : Nat) : Int :=
  let hoursNum : Int := (if sg = '+' then 1 else -1) * (oh : Int)
  (hoursNum * 60 + (om : Int)) * (if sg = '+' then 1 else -1)

/-- Result of `parseLogLine`: timestamp (ms), raw level token, message. -/
structure ParsedHeader where
  timestamp : Int
  level : String
  message : String
deriving DecidableEq, Repr

/-- The group `(\d{4}-\d{2}-\d{2} \d{2}:\d{2}:\d{2}\.\d{3})` of the header
regex: consume the 23-character date-time literal and return its value as
milliseconds read in UTC, together with the unconsumed remainder. -/
def parseLiteral : List Char → Option (Int × List Char)
  | y1 :: y2 :: y3 :: y4 :: '-' :: m1 :: m2 :: '-' :: d1 :: d2 :: ' ' ::
    h1 :: h2 :: ':' :: i1 :: i2 :: ':' :: s1 :: s2 :: '.' :: f1 :: f2 :: f3 :: rest =>
    if (y1.isDigit && y2.isDigit && y3.isDigit && y4.isDigit &&
        m1.isDigit && m2.isDigit && d1.isDigit && d2.isDigit &&
        h1.isDigit && h2.isDigit && i1.isDigit && i2.isDigit &&
        s1.isDigit && s2.isDigit && f1.isDigit && f2.isDigit && f3.isDigit) then
      some (literalMs (dv y1 * 1000 + dv y2 * 100 + dv y3 * 10 + dv y4)
              (dv m1 * 10 + dv m2) (dv d1 * 10 + dv d2)
              (dv h1 * 10 + dv h2) (dv i1 * 10 + dv i2) (dv s1 * 10 + dv s2)
              (dv f1 * 100 + dv f2 * 10 + dv f3), rest)
    else none
  | _ => none

/-- The group `([+-]\d{2}:\d{2})` of the header regex: consume the signed
zone offset, returning sign character, hours, minutes and the remainder. -/
def parseOffset : List Char → Option (Char × Nat × Nat × List Char)
  | sg :: o1 :: o2 :: ':' :: p1 :: p2 :: rest =>
    if (sg = '+' || sg = '-') && o1.isDigit && o2.isDigit && p1.isDigit && p2.isDigit then
      some (sg, dv o1 * 10 + dv o2, dv p1 * 10 + dv p2, rest)
    else none
  | _ => none

/-- `parseLogLine` of `FileUpload.tsx` (lines 86-105): match
`^(\d{4}-\d{2}-\d{2} \d{2}:\d{2}:\d{2}\.\d{3}) ([+-]\d{2}:\d{2}) \[(.*?)\] (.*)$`
and produce the instant `literal-as-UTC - offsetMinutes` (the residue of the
code's `Date` arithmetic once the browser-zone terms cancel), the level token
and the message remainder. -/
def parseLogLine (s : String) : Option ParsedHeader :=
  match parseLiteral s.data with
  | some (lit, ' ' :: rest1) =>
    match parseOffset rest1 with
    | some (sg, oh, om, ' ' :: '[' :: rest2) =>
      match splitLevelMsg rest2 with
      | some (lvl, msg) =>
        if msg.all dotOkB then
          some ⟨lit - offsetMinutesJS sg oh om * 60000, ⟨lvl⟩, ⟨msg⟩⟩
        else none
      | none => none
    | _ => none
  | _ => none

/-- Reference timestamp semantics, for comparison with `parseLogLine`.
Modelled from the spec: the TimestampResolver output is "an absolute instant
normalized to one reference frame", i.e. the date-time literal read in the
zone given by the signed `HH:mm` offset: `literal-as-UTC` minus the offset
(`+HH:mm` means the literal is ahead of UTC by `HH*60+mm` minutes,
`-HH:mm` behind). -/
def specDenotedInstant (s : String) : Option Int :=
  match parseLiteral s.data with
  | some (lit, ' ' :: rest1) =>
    match parseOffset rest1 with
    | some (sg, oh, om, ' ' :: '[' :: rest2) =>
      match splitLevelMsg rest2 with
      | some (_, msg) =>
        if msg.all dotOkB then
          some (lit - (if sg = '+' then 1 else -1) * ((oh : Int) * 60 + (om : Int)) * 60000)
        else none
      | none => none
    | _ => none
  | _ => none

/-- The per-file loop of `handleUpload` (`FileUpload.tsx` lines 132-179):
state is the open entry (`currentEntry`) and the `isCollectingStackTrace`
flag; lines are trimmed, empty lines skipped; a header with a recognized
level emits the open entry and opens a new one; a header with an
unrecognized level only stops collecting; while collecting, a stack-trace
line is appended, and a plain line is appended exactly when the next
physical line (`lines[index + 1]`), trimmed, is non-empty and is a
stack-trace line, otherwise collecting stops; at end of file the open
entry is emitted. -/
def processLines (fname : String) : List String → Option LogData → Bool → List LogData
  | [], cur, _ => cur.toList
  | line :: rest, cur, collecting =>
    let t := jsTrim line
    if t = "" then processLines fname rest cur collecting
    else
      match parseLogLine t with
      | some p =>
        match normalizeLogLevel p.level with
        | some lvl =>
          cur.toList ++ processLines fname rest (some ⟨p.timestamp, p.message, fname, lvl⟩) true
        | none => processLines fname rest cur false
      | none =>
        match cur with
        | some e =>
          if collecting then
            if isStackTraceLine t then
              processLines fname rest (some { e with message := e.message ++ "\n" ++ t }) true
            else
              match rest.head? with
              | some nl =>
                if jsTrim nl = "" then processLines fname rest (some e) false
                else if isStackTraceLine (jsTrim nl) then
                  processLines fname rest (some { e with message := e.message ++ "\n" ++ t }) true
                else processLines fname rest (some e) false
              | none => processLines fname rest (some e) false
          else processLines fname rest (some e) collecting
        | none => processLines fname rest none collecting

/-- Parse the lines of one file (`handleUpload` per-file body, starting from
`currentEntry = null`, `isCollectingStackTrace = false`). -/
def parseFileLines (fname : String) (lines : List String) : List LogData :=
  processLines fname lines none false

/-- JavaScript `text.split('\n')` on the character list: every occurrence of
`'\n'` separates two (possibly empty) pieces; the empty text yields `[""]`. -/
def splitNL : List Char → List (List Char)
  | [] => [[]]
  | c :: rest =>
    match splitNL rest with
    | [] => [[]]
    | h :: t => if c = '\n' then [] :: h :: t else (c :: h) :: t

/-- JavaScript `text.split('\n')`. -/
def splitLines (text : String) : List String :=
  (splitNL text.data).map (fun l => ⟨l⟩)

/-- Parse one file's raw text: `text.split('\n')` then the line loop. -/
def parseFileText (fname : String) (text : String) : List LogData :=
  parseFileLines fname (splitLines text)

/-- The ordered non-empty trimmed lines of a file, the sequence the spec's
state machine description quantifies over. -/
def nonEmptyTrimmed : List String → List String
  | [] => []
  | l :: ls => if jsTrim l = "" then nonEmptyTrimmed ls else jsTrim l :: nonEmptyTrimmed ls

/-- Newline-joining of continuation lines as the parser performs it:
each line is appended as `"\n" + line`. -/
def joinedNL : List String → String
  | [] => ""
  | c :: cs => "\n" ++ c ++ joinedNL cs

/-- The counting pass of `handleFileSelect` (`FileUpload.tsx` lines 52-66):
split the raw text on `'\n'` and, per trimmed line, count it as an error if
it contains `[ERR]`, otherwise as a warning if it contains `[WRN]`
(an `else if`: a line containing both counts only as an error).
Returns `(errorCount, warningCount)`. -/
def statsStep (acc : Nat × Nat) (line : String) : Nat × Nat :=
  let t := jsTrim line
  if hasSubstring t "[ERR]" then (acc.1 + 1, acc.2)
  else if hasSubstring t "[WRN]" then (acc.1, acc.2 + 1)
  else acc

/-- `handleFileSelect` counting over the whole text (see `statsStep`). -/
def fileStatsOf (text : String) : Nat × Nat :=
  (splitLines text).foldl statsStep (0, 0)

/-- 15 minutes in milliseconds, the timeline bucket width. -/
def bucketQ : Int := 900000

/-- 30 minutes in milliseconds, the timeline range padding. -/
def padMs : Int := 1800000

/-- `min(dates)` of `Timeline.tsx` over a non-empty list (date-fns `min`). -/
def minTs : List LogData → Int
  | [] => 0
  | x :: xs => xs.foldl (fun a b => min a b.timestamp) x.timestamp

/-- `max(dates)` of `Timeline.tsx` over a non-empty list (date-fns `max`). -/
def maxTs : List LogData → Int
  | [] => 0
  | x :: xs => xs.foldl (fun a b => max a b.timestamp) x.timestamp

/-- One point of `chartData` (`Timeline.tsx` interface `ChartDataPoint`). -/
structure ChartPoint where
  timestamp : Int
  errorCount : Nat
  warningCount : Nat
  totalCount : Nat
  entries : List LogData
deriving DecidableEq, Repr

/-- Number of loop iterations of the interval-generation `while` loop. -/
def intervalCount (s e : Int) : Nat := (e - s).toNat / 900000 + 1

/-- `n` interval start times beginning at `s`, spaced 15 minutes apart. -/
def intervalStartsAux (s : Int) : Nat → List Int
  | 0 => []
  | n + 1 => s :: intervalStartsAux (s + bucketQ) n

/-- The interval start times generated by the `while (currentInterval <=
endDate)` loop of `chartData` (`Timeline.tsx` lines 87-98): starts `s`,
`s + 15min`, ... while the start is `≤ e`.  `intervalStarts_step` below
proves this closed form equal to the loop step. -/
def intervalStarts (s e : Int) : List Int :=
  if s ≤ e then intervalStartsAux s (intervalCount s e) else []

/-- date-fns `isWithinInterval t {start, end}`: inclusive on both ends. -/
def inWindow (t s : Int) : Bool := decide (s ≤ t) && decide (t ≤ s + bucketQ)

/-- The per-entry update of `chartData` (`Timeline.tsx` lines 108-116):
increment the per-level count, recompute `totalCount`, append the entry. -/
def bumpPoint (log : LogData) (p : ChartPoint) : ChartPoint :=
  let e := if log.level = Level.err then p.errorCount + 1 else p.errorCount
  let w := if log.level = Level.err then p.warningCount else p.warningCount + 1
  { p with errorCount := e, warningCount := w, totalCount := e + w,
           entries := p.entries ++ [log] }

/-- `intervals.find(i => isWithinInterval(log.timestamp, ...))` followed by
mutation of the found point: update the first point whose closed 15-minute
window contains the entry's timestamp; if none matches, leave all unchanged. -/
def assignLog (ps : List ChartPoint) (log : LogData) : List ChartPoint :=
  match ps with
  | [] => []
  | p :: rest =>
    if inWindow log.timestamp p.timestamp then bumpPoint log p :: rest
    else p :: assignLog rest log

/-- The group filter of `chartData` (`Timeline.tsx` lines 81-83):
`selectedError ? logData.filter(log => log.message === selectedError) : logData`. -/
def filteredData (sel : Option String) (logData : List LogData) : List LogData :=
  match sel with
  | some m => logData.filter (fun log => log.message = m)
  | none => logData

/-- `chartData` of `Timeline.tsx` (lines 77-120) together with the
`startDate`/`endDate` memo (lines 62-74): empty input yields an empty list;
otherwise the range is `[min - 30min, max + 30min]` over the full prop
`logData`, the intervals are generated over that range, and each entry of
the group-filtered subset is assigned to the first interval whose closed
window contains its timestamp. -/
def timelineChartData (logData : List LogData) (sel : Option String) : List ChartPoint :=
  match logData with
  | [] => []
  | _ :: _ =>
    let s := minTs logData - padMs
    let e := maxTs logData + padMs
    let init := (intervalStarts s e).map (fun ts => ⟨ts, 0, 0, 0, []⟩)
    (filteredData sel logData).foldl assignLog init

/-- One message group of `ErrorList`'s `messageGroups`. -/
structure MessageGroup where
  message : String
  count : Nat
  occurrences : List LogData
deriving DecidableEq, Repr

/-- One step of the grouping loop (`ErrorList` lines 71-80): if a group with
the entry's message exists (JS `Map.get`), increment its count and push the
entry onto its occurrence list in place; otherwise append a fresh group at
the end (JS `Map` insertion order). -/
def addToGroups (gs : List MessageGroup) (log : LogData) : List MessageGroup :=
  match gs with
  | [] => [⟨log.message, 1, [log]⟩]
  | g :: rest =>
    if g.message = log.message then
      { g with count := g.count + 1, occurrences := g.occurrences ++ [log] } :: rest
    else g :: addToGroups rest log

/-- The grouping loop over `logData`, as an insertion-ordered association
list (the JS `Map<string, {count, occurrences}>`). -/
def buildGroups (logData : List LogData) : List MessageGroup :=
  logData.foldl addToGroups []

/-- Stable insert for a descending sort by `count`: place `g` before the
first group with a strictly smaller count, i.e. after every earlier group
with a greater-or-equal count. -/
def insertDesc (g : MessageGroup) : List MessageGroup → List MessageGroup
  | [] => [g]
  | h :: t => if h.count < g.count then g :: h :: t else h :: insertDesc g t

/-- `.sort((a, b) => b.count - a.count)` of `ErrorList`: JavaScript
`Array.prototype.sort` is stable, and a stable descending sort by count is
extensionally the insertion sort that inserts each element after all
already-placed elements of greater-or-equal count. -/
def sortByCountDesc (gs : List MessageGroup) : List MessageGroup :=
  gs.foldl (fun acc g => insertDesc g acc) []

/-- `messageGroups` of `ErrorList` (lines 68-87 of the current revision,
`.slice(0, 100)`; the earlier revision uses `.slice(0, 15)`): group, sort by
count descending (stable), truncate to the top `n`. -/
def messageGroups (n : Nat) (logData : List LogData) : List MessageGroup :=
  (sortByCountDesc (buildGroups logData)).take n

/-- The fixed-epoch bucket key of `hasTemporalOverlap` (`ErrorList` lines
44-53): `Math.floor(time / (15*60*1000)) * (15*60*1000)` (floor division,
also for negative times). -/
def bucketKey (t : Int) : Int := Int.fdiv t 900000 * 900000

/-- The bucket keys of a group's occurrence list (the JS `Set` is modelled
by the key list; only membership is ever consulted). -/
def bucketKeys (logs : List LogData) : List Int :=
  logs.map (fun log => bucketKey log.timestamp)

/-- List membership test for bucket keys (JS `Set.has`). -/
def memKey (k : Int) : List Int → Bool
  | [] => false
  | j :: js => decide (j = k) || memKey k js

/-- `hasTemporalOverlap` of `ErrorList` (lines 42-65): compute each group's
fixed-epoch 15-minute bucket keys and return true iff some key of the first
group is a key of the second. -/
def hasTemporalOverlap (group1 group2 : List LogData) : Bool :=
  (bucketKeys group1).any (fun k => memKey k (bucketKeys group2))

/-! ### Overlap symmetry (C9) -/

lemma memKey_eq_true_iff (k : Int) (l : List Int) : memKey k l = true ↔ k ∈ l := by
  induction l with
  | nil => simp [memKey]
  | cons j js ih =>
    simp [memKey, ih, List.mem_cons]
    constructor
    · rintro (h | h)
      · exact Or.inl h.symm
      · exact Or.inr h
    · rintro (h | h)
      · exact Or.inl h.symm
      · exact Or.inr h

lemma hasTemporalOverlap_true_iff (a b : List LogData) :
    hasTemporalOverlap a b = true ↔ ∃ k, k ∈ bucketKeys a ∧ k ∈ bucketKeys b := by
  unfold hasTemporalOverlap
  rw [List.any_eq_true]
  constructor
  · rintro ⟨k, hk1, hk2⟩
    exact ⟨k, hk1, (memKey_eq_true_iff k (bucketKeys b)).mp hk2⟩
  · rintro ⟨k, hk1, hk2⟩
    exact ⟨k, hk1, (memKey_eq_true_iff k (bucketKeys b)).mpr hk2⟩

/-- C9: `hasTemporalOverlap` is symmetric: for any two entry sets, the
fixed-epoch 15-minute bucket key sets intersect in one order iff they
intersect in the other. -/
theorem overlap_symmetric (group1 group2 : List LogData) :
    hasTemporalOverlap group1 group2 = hasTemporalOverlap group2 group1 := by
  have key : ∀ a b : List LogData,
      hasTemporalOverlap a b = true → hasTemporalOverlap b a = true := by
    intro a b hab
    rcases (hasTemporalOverlap_true_iff a b).mp hab with ⟨k, h1, h2⟩
    exact (hasTemporalOverlap_true_iff b a).mpr ⟨k, h2, h1⟩
  cases hab : hasTemporalOverlap group1 group2 with
  | true => exact (key group1 group2 hab).symm
  | false =>
    cases hba : hasTemporalOverlap group2 group1 with
    | true =>
      have h2 := key group2 group1 hba
      rw [hab] at h2
      simp at h2
    | false => rfl

/-! ### File summary counts (C6) -/

lemma foldl_statsStep (L : List String) : ∀ a b : Nat,
    L.foldl statsStep (a, b) =
      (a + (L.filter (fun l => hasSubstring (jsTrim l) "[ERR]")).length,
       b + (L.filter (fun l =>
             hasSubstring (jsTrim l) "[WRN]" && !hasSubstring (jsTrim l) "[ERR]")).length) := by
  induction L with
  | nil => intro a b; simp
  | cons l L ih =>
    intro a b
    rw [List.foldl_cons]
    cases herr : hasSubstring (jsTrim l) "[ERR]" with
    | true =>
      simp only [statsStep, herr, if_true, List.filter_cons, Bool.not_true, Bool.and_false,
        Bool.false_eq_true, if_false, ih, List.length_cons, Prod.mk.injEq]
      exact ⟨by omega, trivial⟩
    | false =>
      cases hwrn : hasSubstring (jsTrim l) "[WRN]" with
      | true =>
        simp only [statsStep, herr, hwrn, Bool.false_eq_true, if_false, if_true,
          List.filter_cons, Bool.not_false, Bool.and_true, ih, List.length_cons, Prod.mk.injEq]
        exact ⟨trivial, by omega⟩
      | false =>
        simp only [statsStep, herr, hwrn, Bool.false_eq_true, if_false,
          List.filter_cons, Bool.false_and, ih]

/-- C6 counterexample: in a text whose first line contains both `[ERR]` and
`[WRN]`, the warning tally is 1 although two trimmed lines contain the
literal substring `[WRN]` — the `else if` counts a both-token line only as
an error, so `warningCount` is not the number of `[WRN]`-containing lines. -/
theorem fileStats_both_tokens_cex :
    ¬ ((fileStatsOf "a [ERR] b [WRN] c\n[WRN] x\nzz").2 =
       ((splitLines "a [ERR] b [WRN] c\n[WRN] x\nzz").filter
         (fun l => hasSubstring (jsTrim l) "[WRN]")).length) := by
  decide

/-- C6 amended: for every raw file text, `errorCount` is the number of lines
whose trimmed content contains `[ERR]`, and `warningCount` is the number of
lines whose trimmed content contains `[WRN]` but not `[ERR]` (a line
containing both substrings is counted only in the error tally). -/
theorem fileStats_counts (text : String) :
    (fileStatsOf text).1 =
      ((splitLines text).filter (fun l => hasSubstring (jsTrim l) "[ERR]")).length ∧
    (fileStatsOf text).2 =
      ((splitLines text).filter (fun l =>
        hasSubstring (jsTrim l) "[WRN]" && !hasSubstring (jsTrim l) "[ERR]")).length := by
  unfold fileStatsOf
  rw [foldl_statsStep]
  exact ⟨by omega, by omega⟩

/-! ### Timestamp normalization (C4) -/

/-- C4: the code contradicts normalization.  The two header lines
`2025-04-17 08:00:00.000 +02:00 [ERR] A` and
`2025-04-17 04:00:00.000 -02:00 [ERR] A` denote the same absolute instant
(2025-04-17T06:00:00Z), yet `parseLogLine` gives them different timestamps:
`Number("-02")` is already negative and is multiplied by
`timezone.startsWith('+') ? 1 : -1` again, so a `-02:00` offset is treated
like `+02:00`. -/
theorem parseLogLine_offset_sign_bug :
    specDenotedInstant "2025-04-17 08:00:00.000 +02:00 [ERR] A" =
      specDenotedInstant "2025-04-17 04:00:00.000 -02:00 [ERR] A" ∧
    (specDenotedInstant "2025-04-17 08:00:00.000 +02:00 [ERR] A").isSome = true ∧
    (parseLogLine "2025-04-17 08:00:00.000 +02:00 [ERR] A").map ParsedHeader.timestamp ≠
      (parseLogLine "2025-04-17 04:00:00.000 -02:00 [ERR] A").map ParsedHeader.timestamp := by
  decide

/-! ### Timeline interval generation -/

/-- The closed form `intervalStarts` satisfies exactly the step equation of
the `while (currentInterval <= endDate)` loop. -/
lemma intervalStarts_step (s e : Int) :
    intervalStarts s e = if s ≤ e then s :: intervalStarts (s + bucketQ) e else [] := by
  unfold intervalStarts intervalCount
  by_cases h : s ≤ e
  · rw [if_pos h, if_pos h]
    show intervalStartsAux s ((e - s).toNat / 900000 + 1) = _
    rw [intervalStartsAux]
    by_cases h2 : s + bucketQ ≤ e
    · rw [if_pos h2]
      have hQ : bucketQ = 900000 := rfl
      have hsum : (e - s).toNat = (e - (s + bucketQ)).toNat + 900000 := by
        rw [hQ] at h2 ⊢; omega
      rw [hsum, Nat.add_div_right _ (by norm_num)]
    · rw [if_neg h2]
      have hlt : (e - s).toNat / 900000 = 0 := by
        apply Nat.div_eq_of_lt
        have hQ : bucketQ = 900000 := rfl
        rw [hQ] at h2; omega
      rw [hlt]
      rfl
  · rw [if_neg h, if_neg h]

/-- Every `t` with `s ≤ t < s + n * 15min` lies in the closed window of some
generated interval start. -/
lemma intervalStartsAux_cover (n : Nat) : ∀ s t : Int, s ≤ t → t < s + n * bucketQ →
    ∃ p ∈ intervalStartsAux s n, p ≤ t ∧ t ≤ p + bucketQ := by
  induction n with
  | zero =>
    intro s t h1 h2
    exfalso
    have hQ : bucketQ = 900000 := rfl
    rw [hQ] at h2
    omega
  | succ n ih =>
    intro s t h1 h2
    by_cases hc : t ≤ s + bucketQ
    · exact ⟨s, by simp [intervalStartsAux], h1, hc⟩
    · have hQ : bucketQ = 900000 := rfl
      obtain ⟨p, hp, h3, h4⟩ := ih (s + bucketQ) t (by rw [hQ] at hc ⊢; omega)
        (by rw [hQ] at h2 ⊢; push_cast at h2 ⊢; omega)
      exact ⟨p, by simp [intervalStartsAux]; exact Or.inr hp, h3, h4⟩

lemma intervalStartsAux_getLast (n : Nat) : ∀ s : Int,
    (intervalStartsAux s (n + 1)).getLast? = some (s + n * bucketQ) := by
  induction n with
  | zero => intro s; simp [intervalStartsAux]
  | succ n ih =>
    intro s
    show (s :: intervalStartsAux (s + bucketQ) (n + 1)).getLast? = _
    rw [intervalStartsAux]
    rw [List.getLast?_cons_cons]
    rw [show (s + bucketQ) :: intervalStartsAux (s + bucketQ + bucketQ) n
          = intervalStartsAux (s + bucketQ) (n + 1) from rfl]
    rw [ih (s + bucketQ)]
    congr 1
    push_cast
    ring

/-! ### Timeline assignment -/

/-- `assignLog` only mutates counts and entry lists; the interval start
times are unchanged. -/
lemma assignLog_timestamps (log : LogData) (ps : List ChartPoint) :
    (assignLog ps log).map ChartPoint.timestamp = ps.map ChartPoint.timestamp := by
  induction ps with
  | nil => rfl
  | cons p rest ih =>
    unfold assignLog
    cases hw : inWindow log.timestamp p.timestamp with
    | false => simp [hw, ih]
    | true => simp [hw, bumpPoint]

lemma foldl_assign_timestamps (L : List LogData) : ∀ ps : List ChartPoint,
    ((L.foldl assignLog ps).map ChartPoint.timestamp) = ps.map ChartPoint.timestamp := by
  induction L with
  | nil => intro ps; rfl
  | cons log L ih =>
    intro ps
    rw [List.foldl_cons, ih (assignLog ps log), assignLog_timestamps]

/-! ### Interval boundary policy (C5) -/

/-- C5 counterexample: a single entry at timestamp 0.  The generated interval
starts are `-30min, -15min, 0, +15min, +30min`, so 0 is the shared boundary
of the intervals starting at `-15min` and at `0`.  The entry is counted in
the interval starting at `-15min` (the one that ENDS at its timestamp) and
the interval starting at 0 stays empty: `isWithinInterval` is inclusive on
both ends and `Array.prototype.find` returns the first match, so the claimed
low-half-open assignment to the interval starting at `t` is false. -/
theorem timeline_boundary_cex :
    (timelineChartData [⟨0, "m", "f", Level.err⟩] none).map
        (fun p => (p.timestamp, p.errorCount, p.entries.length)) =
      [(-1800000, 0, 0), (-900000, 1, 1), (0, 0, 0), (900000, 0, 0), (1800000, 0, 0)] := by
  decide

/-- C5 amended: interval membership is closed on both ends and ties go to the
earlier interval: for any single entry, whose timestamp is always the shared
boundary of the second and third generated intervals, the entry is assigned
to the interval that ENDS at its timestamp (start `t - 15min`), and the
interval that STARTS at `t` stays empty. -/
theorem timeline_boundary_to_earlier (t : Int) (m f : String) (lvl : Level) :
    timelineChartData [⟨t, m, f, lvl⟩] none =
      [⟨t - 1800000, 0, 0, 0, []⟩,
       bumpPoint ⟨t, m, f, lvl⟩ ⟨t - 900000, 0, 0, 0, []⟩,
       ⟨t, 0, 0, 0, []⟩,
       ⟨t + 900000, 0, 0, 0, []⟩,
       ⟨t + 1800000, 0, 0, 0, []⟩] := by
  have hstarts : intervalStarts (t - padMs) (t + padMs) =
      [t - 1800000, t - 900000, t, t + 900000, t + 1800000] := by
    have hcount : intervalCount (t - padMs) (t + padMs) = 5 := by
      unfold intervalCount padMs
      rw [show t + 1800000 - (t - 1800000) = (3600000 : Int) by ring]
      rfl
    unfold intervalStarts
    rw [if_pos (by unfold padMs; omega), hcount]
    simp only [intervalStartsAux, bucketQ, padMs, List.cons.injEq, and_true]
    exact ⟨trivial, by omega⟩
  have hw1 : inWindow t (t - 1800000) = false := by
    simp only [inWindow, bucketQ]
    simp only [Bool.and_eq_false_iff, decide_eq_false_iff_not]
    omega
  have hw2 : inWindow t (t - 900000) = true := by
    simp only [inWindow, bucketQ]
    simp only [Bool.and_eq_true, decide_eq_true_eq]
    omega
  show (filteredData none [⟨t, m, f, lvl⟩]).foldl assignLog
      ((intervalStarts (minTs [⟨t, m, f, lvl⟩] - padMs)
        (maxTs [⟨t, m, f, lvl⟩] + padMs)).map (fun ts => ⟨ts, 0, 0, 0, []⟩)) = _
  simp only [filteredData, minTs, maxTs, List.foldl_nil]
  rw [hstarts]
  simp only [List.map_cons, List.map_nil, List.foldl_cons, List.foldl_nil]
  unfold assignLog
  rw [hw1]
  simp only [Bool.false_eq_true, if_false]
  unfold assignLog
  rw [hw2]
  simp

/-! ### Timeline range bounds -/

lemma foldlMin_le_init (xs : List LogData) : ∀ a : Int,
    xs.foldl (fun a b => min a b.timestamp) a ≤ a := by
  induction xs with
  | nil => intro a; simp
  | cons x xs ih =>
    intro a
    rw [List.foldl_cons]
    exact le_trans (ih _) (min_le_left _ _)

lemma foldlMin_le_mem (xs : List LogData) : ∀ a : Int, ∀ log ∈ xs,
    xs.foldl (fun a b => min a b.timestamp) a ≤ log.timestamp := by
  induction xs with
  | nil => intro a log h; simp at h
  | cons x xs ih =>
    intro a log h
    rw [List.foldl_cons]
    rcases List.mem_cons.mp h with h | h
    · subst h; exact le_trans (foldlMin_le_init xs _) (min_le_right _ _)
    · exact ih _ log h

lemma minTs_le (L : List LogData) (log : LogData) (h : log ∈ L) :
    minTs L ≤ log.timestamp := by
  cases L with
  | nil => simp at h
  | cons x xs =>
    rcases List.mem_cons.mp h with h | h
    · subst h; exact foldlMin_le_init xs _
    · exact foldlMin_le_mem xs _ log h

lemma init_le_foldlMax (xs : List LogData) : ∀ a : Int,
    a ≤ xs.foldl (fun a b => max a b.timestamp) a := by
  induction xs with
  | nil => intro a; simp
  | cons x xs ih =>
    intro a
    rw [List.foldl_cons]
    exact le_trans (le_max_left _ _) (ih _)

lemma mem_le_foldlMax (xs : List LogData) : ∀ a : Int, ∀ log ∈ xs,
    log.timestamp ≤ xs.foldl (fun a b => max a b.timestamp) a := by
  induction xs with
  | nil => intro a log h; simp at h
  | cons x xs ih =>
    intro a log h
    rw [List.foldl_cons]
    rcases List.mem_cons.mp h with h | h
    · subst h; exact le_trans (le_max_right _ _) (init_le_foldlMax xs _)
    · exact ih _ log h

lemma le_maxTs (L : List LogData) (log : LogData) (h : log ∈ L) :
    log.timestamp ≤ maxTs L := by
  cases L with
  | nil => simp at h
  | cons x xs =>
    rcases List.mem_cons.mp h with h | h
    · subst h; exact init_le_foldlMax xs _
    · exact mem_le_foldlMax xs _ log h

lemma mem_filteredData (sel : Option String) (L : List LogData) (log : LogData)
    (h : log ∈ filteredData sel L) : log ∈ L := by
  cases sel with
  | none => exact h
  | some m => exact (List.mem_filter.mp h).1

/-! ### Conservation of counts (C2) -/

lemma assignLog_counts (log : LogData) (ps : List ChartPoint)
    (h : ∃ p ∈ ps, inWindow log.timestamp p.timestamp = true) :
    ((assignLog ps log).map ChartPoint.errorCount).sum
      = (ps.map ChartPoint.errorCount).sum + (if log.level = Level.err then 1 else 0) ∧
    ((assignLog ps log).map ChartPoint.warningCount).sum
      = (ps.map ChartPoint.warningCount).sum + (if log.level = Level.err then 0 else 1) ∧
    ((assignLog ps log).map (fun p => p.entries.length)).sum
      = (ps.map (fun p => p.entries.length)).sum + 1 := by
  induction ps with
  | nil => simp at h
  | cons p rest ih =>
    cases hw : inWindow log.timestamp p.timestamp with
    | true =>
      by_cases hl : log.level = Level.err <;>
        simp [assignLog, hw, bumpPoint, hl] <;> omega
    | false =>
      have h' : ∃ q ∈ rest, inWindow log.timestamp q.timestamp = true := by
        rcases h with ⟨q, hq, hqw⟩
        rcases List.mem_cons.mp hq with rfl | hq2
        · rw [hw] at hqw; cases hqw
        · exact ⟨q, hq2, hqw⟩
      obtain ⟨e1, e2, e3⟩ := ih h'
      simp only [assignLog, hw, Bool.false_eq_true, if_false, List.map_cons,
        List.sum_cons, e1, e2, e3]
      omega

lemma foldl_assign_counts (L : List LogData) : ∀ ps : List ChartPoint,
    (∀ log ∈ L, ∃ p ∈ ps, inWindow log.timestamp p.timestamp = true) →
    ((L.foldl assignLog ps).map ChartPoint.errorCount).sum
      = (ps.map ChartPoint.errorCount).sum
        + (L.filter (fun l => l.level = Level.err)).length ∧
    ((L.foldl assignLog ps).map ChartPoint.warningCount).sum
      = (ps.map ChartPoint.warningCount).sum
        + (L.filter (fun l => l.level = Level.wrn)).length ∧
    ((L.foldl assignLog ps).map (fun p => p.entries.length)).sum
      = (ps.map (fun p => p.entries.length)).sum + L.length := by
  induction L with
  | nil => intro ps _; simp
  | cons log L ih =>
    intro ps h
    rw [List.foldl_cons]
    have hlog := h log (List.mem_cons_self log L)
    have hrest : ∀ l ∈ L, ∃ p ∈ assignLog ps log, inWindow l.timestamp p.timestamp = true := by
      intro l hl
      obtain ⟨p, hp, hpw⟩ := h l (List.mem_cons_of_mem _ hl)
      have hmm : p.timestamp ∈ (assignLog ps log).map ChartPoint.timestamp := by
        rw [assignLog_timestamps]
        exact List.mem_map_of_mem _ hp
      obtain ⟨q, hq, hqts⟩ := List.mem_map.mp hmm
      exact ⟨q, hq, by rw [hqts]; exact hpw⟩
    obtain ⟨e1, e2, e3⟩ := ih (assignLog ps log) hrest
    obtain ⟨a1, a2, a3⟩ := assignLog_counts log ps hlog
    rw [e1, e2, e3, a1, a2, a3]
    by_cases hl : log.level = Level.err
    · have hw : ¬ (log.level = Level.wrn) := by rw [hl]; simp
      simp [List.filter_cons, hl, hw]
      omega
    · have hw : log.level = Level.wrn := by
        cases hlev : log.level
        · exact absurd hlev hl
        · rfl
      simp [List.filter_cons, hl, hw]
      omega

lemma initPoints_sums (starts : List Int) :
    ((starts.map (fun ts => (⟨ts, 0, 0, 0, []⟩ : ChartPoint))).map ChartPoint.errorCount).sum = 0 ∧
    ((starts.map (fun ts => (⟨ts, 0, 0, 0, []⟩ : ChartPoint))).map ChartPoint.warningCount).sum = 0 ∧
    ((starts.map (fun ts => (⟨ts, 0, 0, 0, []⟩ : ChartPoint))).map (fun p => p.entries.length)).sum = 0 := by
  induction starts with
  | nil => simp
  | cons a ss ih => simpa using ih

lemma timelineChartData_cons (x : LogData) (xs : List LogData) (sel : Option String) :
    timelineChartData (x :: xs) sel =
      (filteredData sel (x :: xs)).foldl assignLog
        ((intervalStarts (minTs (x :: xs) - padMs) (maxTs (x :: xs) + padMs)).map
          (fun ts => (⟨ts, 0, 0, 0, []⟩ : ChartPoint))) := rfl

/-- C2: no entry is lost or double-counted.  For every entry list and every
group selection, the sum over all generated intervals of the per-level counts
equals the number of entries of that level in the counted (group-filtered or
unfiltered) subset, and the total number of collected entries equals the size
of that subset. -/
theorem timeline_counts_conserved (logData : List LogData) (sel : Option String) :
    ((timelineChartData logData sel).map ChartPoint.errorCount).sum
      = ((filteredData sel logData).filter (fun l => l.level = Level.err)).length ∧
    ((timelineChartData logData sel).map ChartPoint.warningCount).sum
      = ((filteredData sel logData).filter (fun l => l.level = Level.wrn)).length ∧
    ((timelineChartData logData sel).map (fun p => p.entries.length)).sum
      = (filteredData sel logData).length := by
  cases logData with
  | nil => cases sel <;> simp [timelineChartData, filteredData]
  | cons x xs =>
    have hcov : ∀ log ∈ filteredData sel (x :: xs),
        ∃ p ∈ (intervalStarts (minTs (x :: xs) - padMs) (maxTs (x :: xs) + padMs)).map
            (fun ts => (⟨ts, 0, 0, 0, []⟩ : ChartPoint)),
          inWindow log.timestamp p.timestamp = true := by
      intro log hlog
      have hmem := mem_filteredData sel _ log hlog
      have h1 : minTs (x :: xs) ≤ log.timestamp := minTs_le _ _ hmem
      have h2 : log.timestamp ≤ maxTs (x :: xs) := le_maxTs _ _ hmem
      have hse : minTs (x :: xs) - padMs ≤ maxTs (x :: xs) + padMs := by
        unfold padMs; omega
      have hcover := intervalStartsAux_cover
        (intervalCount (minTs (x :: xs) - padMs) (maxTs (x :: xs) + padMs))
        (minTs (x :: xs) - padMs) log.timestamp
        (by unfold padMs; omega)
        (by unfold intervalCount bucketQ padMs; omega)
      obtain ⟨p, hp, hple, hpge⟩ := hcover
      refine ⟨⟨p, 0, 0, 0, []⟩, ?_, ?_⟩
      · apply List.mem_map_of_mem
        rw [intervalStarts, if_pos hse]
        exact hp
      · simp only [inWindow, Bool.and_eq_true, decide_eq_true_eq]
        exact ⟨hple, hpge⟩
    obtain ⟨e1, e2, e3⟩ := foldl_assign_counts (filteredData sel (x :: xs)) _ hcov
    obtain ⟨z1, z2, z3⟩ := initPoints_sums
      (intervalStarts (minTs (x :: xs) - padMs) (maxTs (x :: xs) + padMs))
    rw [timelineChartData_cons, e1, e2, e3, z1, z2, z3]
    simp

/-! ### Timeline range (C7) -/

lemma chartData_timestamps (logData : List LogData) (sel : Option String) (h : logData ≠ []) :
    (timelineChartData logData sel).map ChartPoint.timestamp
      = intervalStarts (minTs logData - padMs) (maxTs logData + padMs) := by
  cases logData with
  | nil => exact absurd rfl h
  | cons x xs =>
    rw [timelineChartData_cons, foldl_assign_timestamps, List.map_map]
    rw [show (ChartPoint.timestamp ∘ fun ts : Int => (⟨ts, 0, 0, 0, []⟩ : ChartPoint)) = id
          from rfl]
    exact List.map_id _

/-- C7: the timeline axis.  The generated interval start times do not depend
on the selected group; with no entries the aggregation returns the empty
list; with entries, the first interval starts exactly 30 minutes before the
minimum timestamp, and the last interval start is the unique grid point
whose 15-minute window reaches the point exactly 30 minutes after the
maximum timestamp. -/
theorem timeline_range (logData : List LogData) (sel : Option String) :
    (timelineChartData logData sel).map ChartPoint.timestamp
        = (timelineChartData logData none).map ChartPoint.timestamp ∧
    (logData = [] → timelineChartData logData sel = []) ∧
    (logData ≠ [] →
      ((timelineChartData logData sel).map ChartPoint.timestamp).head?
          = some (minTs logData - padMs) ∧
      ∃ lastTs,
        ((timelineChartData logData sel).map ChartPoint.timestamp).getLast? = some lastTs ∧
        lastTs ≤ maxTs logData + padMs ∧ maxTs logData + padMs < lastTs + bucketQ) := by
  refine ⟨?_, ?_, ?_⟩
  · cases logData with
    | nil => rfl
    | cons x xs =>
      rw [chartData_timestamps _ sel (by simp), chartData_timestamps _ none (by simp)]
  · intro h
    subst h
    rfl
  · intro h
    obtain ⟨x, hx⟩ := List.exists_mem_of_ne_nil logData h
    have hmM : minTs logData ≤ maxTs logData :=
      le_trans (minTs_le _ x hx) (le_maxTs _ x hx)
    have hse : minTs logData - padMs ≤ maxTs logData + padMs := by unfold padMs; omega
    rw [chartData_timestamps logData sel h]
    constructor
    · rw [intervalStarts, if_pos hse]
      exact rfl
    · refine ⟨(minTs logData - padMs)
        + ((maxTs logData + padMs - (minTs logData - padMs)).toNat / 900000) * bucketQ,
        ?_, ?_, ?_⟩
      · rw [intervalStarts, if_pos hse]
        exact intervalStartsAux_getLast _ _
      · simp only [padMs, bucketQ] at *
        omega
      · simp only [padMs, bucketQ] at *
        omega

theorem timeline_range_witness :
    ((timelineChartData [(⟨0, "m", "f", Level.err⟩ : LogData)] (some "x")).map
        ChartPoint.timestamp).head?
      = some (minTs [(⟨0, "m", "f", Level.err⟩ : LogData)] - padMs) ∧
    ∃ lastTs,
      ((timelineChartData [(⟨0, "m", "f", Level.err⟩ : LogData)] (some "x")).map
          ChartPoint.timestamp).getLast? = some lastTs ∧
      lastTs ≤ maxTs [(⟨0, "m", "f", Level.err⟩ : LogData)] + padMs ∧
      maxTs [(⟨0, "m", "f", Level.err⟩ : LogData)] + padMs < lastTs + bucketQ :=
  (timeline_range [⟨0, "m", "f", Level.err⟩] (some "x")).2.2 (by decide)

/-! ### Group ranking (C8) -/

lemma mem_insertDesc (g x : MessageGroup) : ∀ l : List MessageGroup,
    x ∈ insertDesc g l ↔ x = g ∨ x ∈ l := by
  intro l
  induction l with
  | nil => simp [insertDesc]
  | cons h t ih =>
    rw [insertDesc]
    by_cases hc : h.count < g.count
    · rw [if_pos hc]
      simp
    · rw [if_neg hc]
      simp only [List.mem_cons, ih]
      tauto

lemma insertDesc_pairwise (g : MessageGroup) : ∀ l : List MessageGroup,
    l.Pairwise (fun a b => b.count ≤ a.count) →
    (insertDesc g l).Pairwise (fun a b => b.count ≤ a.count) := by
  intro l
  induction l with
  | nil => intro _; simp [insertDesc]
  | cons h t ih =>
    intro hp
    obtain ⟨hh, ht⟩ := List.pairwise_cons.mp hp
    rw [insertDesc]
    by_cases hc : h.count < g.count
    · rw [if_pos hc]
      refine List.Pairwise.cons ?_ hp
      intro y hy
      rcases List.mem_cons.mp hy with rfl | hyt
      · omega
      · have := hh y hyt
        omega
    · rw [if_neg hc]
      refine List.Pairwise.cons ?_ (ih ht)
      intro y hy
      rcases (mem_insertDesc g y t).mp hy with rfl | hyt
      · omega
      · exact hh y hyt

lemma foldl_ins_pairwise (l : List MessageGroup) : ∀ acc : List MessageGroup,
    acc.Pairwise (fun a b => b.count ≤ a.count) →
    (l.foldl (fun acc g => insertDesc g acc) acc).Pairwise (fun a b => b.count ≤ a.count) := by
  induction l with
  | nil => intro acc h; simpa using h
  | cons g l ih =>
    intro acc h
    rw [List.foldl_cons]
    exact ih _ (insertDesc_pairwise g acc h)

lemma mem_foldl_ins (l : List MessageGroup) : ∀ acc x,
    x ∈ l.foldl (fun acc g => insertDesc g acc) acc → x ∈ acc ∨ x ∈ l := by
  induction l with
  | nil => intro acc x h; exact Or.inl h
  | cons g l ih =>
    intro acc x h
    rw [List.foldl_cons] at h
    rcases ih _ x h with h2 | h2
    · rcases (mem_insertDesc g x acc).mp h2 with rfl | h3
      · exact Or.inr (List.mem_cons_self _ _)
      · exact Or.inl h3
    · exact Or.inr (List.mem_cons_of_mem _ h2)

lemma mem_sortByCountDesc (gs : List MessageGroup) (x : MessageGroup)
    (h : x ∈ sortByCountDesc gs) : x ∈ gs := by
  rcases mem_foldl_ins gs [] x h with h2 | h2
  · simp at h2
  · exact h2

lemma filter_insertDesc (c : Nat) (g : MessageGroup) : ∀ l : List MessageGroup,
    l.Pairwise (fun a b => b.count ≤ a.count) →
    (insertDesc g l).filter (fun x => x.count = c)
      = l.filter (fun x => x.count = c) ++ (if g.count = c then [g] else []) := by
  intro l
  induction l with
  | nil =>
    intro _
    by_cases hg : g.count = c <;> simp [insertDesc, hg]
  | cons h t ih =>
    intro hp
    obtain ⟨hh, ht⟩ := List.pairwise_cons.mp hp
    rw [insertDesc]
    by_cases hc : h.count < g.count
    · rw [if_pos hc]
      by_cases hg : g.count = c
      · have hnil : (h :: t).filter (fun x => x.count = c) = [] := by
          rw [List.filter_eq_nil_iff]
          intro x hx
          simp only [decide_eq_true_eq]
          rcases List.mem_cons.mp hx with rfl | hxt
          · omega
          · have := hh x hxt
            omega
        simp [List.filter_cons, hg, hnil]
      · simp [List.filter_cons, hg]
    · rw [if_neg hc]
      rw [List.filter_cons, List.filter_cons, ih ht]
      by_cases hh2 : h.count = c <;> simp [hh2]

lemma filter_foldl_ins (c : Nat) (l : List MessageGroup) : ∀ acc : List MessageGroup,
    acc.Pairwise (fun a b => b.count ≤ a.count) →
    (l.foldl (fun acc g => insertDesc g acc) acc).filter (fun x => x.count = c)
      = acc.filter (fun x => x.count = c) ++ l.filter (fun x => x.count = c) := by
  induction l with
  | nil => intro acc _; simp
  | cons g l ih =>
    intro acc hp
    rw [List.foldl_cons, ih _ (insertDesc_pairwise g acc hp), filter_insertDesc c g acc hp,
      List.filter_cons]
    by_cases hg : g.count = c <;> simp [hg]

/-- Group keys in order of first occurrence of each message in the input
(the insertion order of the JS `Map`). -/
def firstKeys (msgs : List String) : List String :=
  msgs.foldl (fun ks m => if m ∈ ks then ks else ks ++ [m]) []

lemma addToGroups_keys (log : LogData) : ∀ acc : List MessageGroup,
    (addToGroups acc log).map MessageGroup.message
      = if log.message ∈ acc.map MessageGroup.message then acc.map MessageGroup.message
        else acc.map MessageGroup.message ++ [log.message] := by
  intro acc
  induction acc with
  | nil => simp [addToGroups]
  | cons g rest ih =>
    by_cases hm : g.message = log.message
    · rw [addToGroups, if_pos hm]
      simp [hm]
    · rw [addToGroups, if_neg hm, List.map_cons, List.map_cons, ih]
      by_cases hmem : log.message ∈ rest.map MessageGroup.message
      · simp [hmem, Ne.symm hm]
      · simp [hmem, Ne.symm hm]

lemma keys_align (L : List LogData) : ∀ acc : List MessageGroup,
    (L.foldl addToGroups acc).map MessageGroup.message
      = L.foldl (fun ks log => if log.message ∈ ks then ks else ks ++ [log.message])
          (acc.map MessageGroup.message) := by
  induction L with
  | nil => intro acc; rfl
  | cons log L ih =>
    intro acc
    rw [List.foldl_cons, List.foldl_cons, ih (addToGroups acc log), addToGroups_keys]

lemma buildGroups_keys (L : List LogData) :
    (buildGroups L).map MessageGroup.message = firstKeys (L.map LogData.message) := by
  rw [buildGroups, firstKeys, keys_align, List.foldl_map]
  rfl

/-- C8: the ranked group list.  `messageGroups n` is sorted non-increasing by
count; its groups appear in first-occurrence order of their message keys
(`buildGroups` lists keys in `firstKeys` order, and for every count value
the surviving groups of that count form a prefix of the first-occurrence
ordered grouping, i.e. the descending sort is stable); and the output is
truncated to at most `n` groups (the code's `.slice(0, 100)` / `.slice(0, 15)`). -/
theorem messageGroups_ranked (n : Nat) (logData : List LogData) :
    (messageGroups n logData).Pairwise (fun a b => b.count ≤ a.count) ∧
    (buildGroups logData).map MessageGroup.message = firstKeys (logData.map LogData.message) ∧
    (∀ c : Nat, ∃ rest,
      (buildGroups logData).filter (fun g => g.count = c)
        = (messageGroups n logData).filter (fun g => g.count = c) ++ rest) ∧
    (messageGroups n logData).length ≤ n := by
  refine ⟨?_, buildGroups_keys logData, ?_, ?_⟩
  · exact List.Pairwise.sublist (List.take_sublist n _)
      (foldl_ins_pairwise _ [] List.Pairwise.nil)
  · intro c
    refine ⟨(List.drop n (sortByCountDesc (buildGroups logData))).filter
      (fun g => g.count = c), ?_⟩
    have h1 : (sortByCountDesc (buildGroups logData)).filter (fun g => g.count = c)
        = (buildGroups logData).filter (fun g => g.count = c) := by
      rw [sortByCountDesc, filter_foldl_ins c _ [] List.Pairwise.nil]
      simp
    rw [← h1]
    conv_lhs => rw [← List.take_append_drop n (sortByCountDesc (buildGroups logData))]
    rw [List.filter_append]
    rfl
  · rw [messageGroups, List.length_take]
    exact min_le_left _ _

/-! ### Group contents (C10) -/

/-- Decomposition of one `addToGroups` step: either no existing group has the
entry's message and a fresh group is appended at the end, or the list splits
around the first group with that message, which is updated in place. -/
lemma addToGroups_decomp (log : LogData) : ∀ gs : List MessageGroup,
    ((∀ g ∈ gs, g.message ≠ log.message) ∧
      addToGroups gs log = gs ++ [⟨log.message, 1, [log]⟩]) ∨
    (∃ pre g post, gs = pre ++ g :: post ∧ g.message = log.message ∧
      (∀ p ∈ pre, p.message ≠ log.message) ∧
      addToGroups gs log
        = pre ++ { g with count := g.count + 1,
                          occurrences := g.occurrences ++ [log] } :: post) := by
  intro gs
  induction gs with
  | nil => exact Or.inl ⟨by simp, rfl⟩
  | cons g rest ih =>
    by_cases hm : g.message = log.message
    · refine Or.inr ⟨[], g, rest, by simp, hm, by simp, ?_⟩
      rw [addToGroups, if_pos hm]
      rfl
    · rcases ih with ⟨hall, heq⟩ | ⟨pre, gm, post, hsplit, hgm, hpre, heq⟩
      · refine Or.inl ⟨?_, ?_⟩
        · intro x hx
          rcases List.mem_cons.mp hx with rfl | hx2
          · exact hm
          · exact hall x hx2
        · rw [addToGroups, if_neg hm, heq]
          rfl
      · refine Or.inr ⟨g :: pre, gm, post, ?_, hgm, ?_, ?_⟩
        · rw [hsplit]
          rfl
        · intro p hp
          rcases List.mem_cons.mp hp with rfl | hp2
          · exact hm
          · exact hpre p hp2
        · rw [addToGroups, if_neg hm, heq]
          rfl

/-- Loop invariant of the grouping pass over the processed prefix `done`:
group keys are distinct, each group's `count` is the length of its occurrence
list, each occurrence list is exactly the processed entries with that
message in order, and every processed message has a group. -/
def GroupsInv (done : List LogData) (gs : List MessageGroup) : Prop :=
  (gs.map MessageGroup.message).Nodup ∧
  (∀ g ∈ gs, g.count = g.occurrences.length ∧
    g.occurrences = done.filter (fun l => l.message = g.message)) ∧
  (∀ l ∈ done, ∃ g ∈ gs, g.message = l.message)

lemma groupsInv_step (done : List LogData) (log : LogData) (gs : List MessageGroup)
    (hinv : GroupsInv done gs) : GroupsInv (done ++ [log]) (addToGroups gs log) := by
  obtain ⟨hnd, hocc, hcov⟩ := hinv
  rcases addToGroups_decomp log gs with ⟨hall, heq⟩ | ⟨pre, g, post, hsplit, hgm, hpre, heq⟩
  · rw [heq]
    refine ⟨?_, ?_, ?_⟩
    · rw [List.map_append]
      refine List.Nodup.append hnd (by simp) ?_
      intro a ha hb
      simp only [List.map_cons, List.map_nil, List.mem_singleton] at hb
      subst hb
      obtain ⟨g2, hg2mem, hg2msg⟩ := List.mem_map.mp ha
      exact hall g2 hg2mem hg2msg
    · intro x hx
      rcases List.mem_append.mp hx with hx | hx
      · obtain ⟨h1, h2⟩ := hocc x hx
        refine ⟨h1, ?_⟩
        rw [List.filter_append, h2]
        have hone : List.filter (fun l => l.message = x.message) [log] = [] := by
          simp [Ne.symm (hall x hx)]
        rw [hone, List.append_nil]
      · simp only [List.mem_singleton] at hx
        subst hx
        refine ⟨rfl, ?_⟩
        show [log] = (done ++ [log]).filter (fun l => l.message = log.message)
        rw [List.filter_append]
        have hdone : done.filter (fun l => l.message = log.message) = [] := by
          rw [List.filter_eq_nil_iff]
          intro l hl
          simp only [decide_eq_true_eq]
          intro hEq
          obtain ⟨g2, hg2mem, hg2m⟩ := hcov l hl
          exact hall g2 hg2mem (hg2m.trans hEq)
        rw [hdone]
        simp
    · intro l hl
      rcases List.mem_append.mp hl with hl | hl
      · obtain ⟨g2, hg2, hm2⟩ := hcov l hl
        exact ⟨g2, List.mem_append_left _ hg2, hm2⟩
      · simp only [List.mem_singleton] at hl
        subst hl
        exact ⟨⟨l.message, 1, [l]⟩, List.mem_append_right _ (by simp), rfl⟩
  · subst hsplit
    rw [heq]
    have hndk := hnd
    rw [List.map_append, List.map_cons] at hndk
    have hpost : ∀ x ∈ post, x.message ≠ log.message := by
      intro x hx
      rw [← hgm]
      intro hEq
      have h1 : g.message ∉ post.map MessageGroup.message :=
        (List.nodup_cons.mp (List.nodup_append.mp hndk).2.1).1
      exact h1 (hEq ▸ List.mem_map_of_mem MessageGroup.message hx)
    refine ⟨?_, ?_, ?_⟩
    · rw [List.map_append, List.map_cons]
      exact hndk
    · intro x hx
      rcases List.mem_append.mp hx with hxpre | hxrest
      · have hxgs : x ∈ pre ++ g :: post := List.mem_append_left _ hxpre
        obtain ⟨h1, h2⟩ := hocc x hxgs
        refine ⟨h1, ?_⟩
        rw [List.filter_append, h2]
        have hone : List.filter (fun l => l.message = x.message) [log] = [] := by
          simp [Ne.symm (hpre x hxpre)]
        rw [hone, List.append_nil]
      · rcases List.mem_cons.mp hxrest with rfl | hxpost
        · have hggs : g ∈ pre ++ g :: post :=
            List.mem_append_right _ (List.mem_cons_self _ _)
          obtain ⟨h1, h2⟩ := hocc g hggs
          constructor
          · show g.count + 1 = (g.occurrences ++ [log]).length
            rw [List.length_append, h1]
            rfl
          · show g.occurrences ++ [log] = (done ++ [log]).filter (fun l => l.message = g.message)
            rw [List.filter_append, ← h2]
            congr 1
            simp [hgm.symm]
        · have hxgs : x ∈ pre ++ g :: post :=
            List.mem_append_right _ (List.mem_cons_of_mem _ hxpost)
          obtain ⟨h1, h2⟩ := hocc x hxgs
          refine ⟨h1, ?_⟩
          rw [List.filter_append, h2]
          have hone : List.filter (fun l => l.message = x.message) [log] = [] := by
            simp [Ne.symm (hpost x hxpost)]
          rw [hone, List.append_nil]
    · intro l hl
      rcases List.mem_append.mp hl with hl | hl
      · obtain ⟨g2, hg2, hm2⟩ := hcov l hl
        rcases List.mem_append.mp hg2 with hg2p | hg2r
        · exact ⟨g2, List.mem_append_left _ hg2p, hm2⟩
        · rcases List.mem_cons.mp hg2r with rfl | hg2post
          · exact ⟨{ g2 with count := g2.count + 1, occurrences := g2.occurrences ++ [log] },
              List.mem_append_right _ (List.mem_cons_self _ _), hm2⟩
          · exact ⟨g2, List.mem_append_right _ (List.mem_cons_of_mem _ hg2post), hm2⟩
      · simp only [List.mem_singleton] at hl
        subst hl
        exact ⟨{ g with count := g.count + 1, occurrences := g.occurrences ++ [l] },
          List.mem_append_right _ (List.mem_cons_self _ _), hgm⟩

lemma buildGroups_inv (L : List LogData) : GroupsInv L (buildGroups L) := by
  induction L using List.reverseRecOn with
  | nil => exact ⟨by simp [buildGroups], by simp [buildGroups], by simp⟩
  | append_singleton L log ih =>
    have hfold : buildGroups (L ++ [log]) = addToGroups (buildGroups L) log := by
      rw [buildGroups, buildGroups, List.foldl_append, List.foldl_cons, List.foldl_nil]
    rw [hfold]
    exact groupsInv_step L log (buildGroups L) ih

/-- C10: every group returned by the aggregator has `count` equal to the
length of its occurrence list, and the occurrence list is exactly the input
entries whose message equals the group key, in input order. -/
theorem messageGroups_occurrences (n : Nat) (logData : List LogData) (g : MessageGroup)
    (h : g ∈ messageGroups n logData) :
    g.count = g.occurrences.length ∧
    g.occurrences = logData.filter (fun l => l.message = g.message) := by
  have h1 : g ∈ sortByCountDesc (buildGroups logData) :=
    (List.take_sublist n _).subset h
  have h2 : g ∈ buildGroups logData := mem_sortByCountDesc _ _ h1
  exact (buildGroups_inv logData).2.1 g h2

theorem messageGroups_occurrences_witness :
    (⟨"a", 1, [⟨0, "a", "f", Level.err⟩]⟩ : MessageGroup).count
        = (⟨"a", 1, [⟨0, "a", "f", Level.err⟩]⟩ : MessageGroup).occurrences.length ∧
    (⟨"a", 1, [⟨0, "a", "f", Level.err⟩]⟩ : MessageGroup).occurrences
        = [(⟨0, "a", "f", Level.err⟩ : LogData)].filter
            (fun l => l.message = (⟨"a", 1, [⟨0, "a", "f", Level.err⟩]⟩ : MessageGroup).message) :=
  messageGroups_occurrences 15 [⟨0, "a", "f", Level.err⟩]
    ⟨"a", 1, [⟨0, "a", "f", Level.err⟩]⟩ (by decide)

/-! ### Parser: header plus continuation lines (C1) -/

lemma nonEmptyTrimmed_decomp (ls : List String) (hline : String) (cs : List String)
    (h : nonEmptyTrimmed ls = hline :: cs) :
    ∃ pre l rest, ls = pre ++ l :: rest ∧ (∀ p ∈ pre, jsTrim p = "") ∧
      jsTrim l = hline ∧ nonEmptyTrimmed rest = cs := by
  induction ls with
  | nil => exact absurd h (by simp [nonEmptyTrimmed])
  | cons l ls ih =>
    rw [nonEmptyTrimmed] at h
    by_cases he : jsTrim l = ""
    · rw [if_pos he] at h
      obtain ⟨pre, l0, rest, h1, h2, h3, h4⟩ := ih h
      refine ⟨l :: pre, l0, rest, by rw [h1]; rfl, ?_, h3, h4⟩
      intro p hp
      rcases List.mem_cons.mp hp with rfl | hp2
      · exact he
      · exact h2 p hp2
    · rw [if_neg he] at h
      injection h with h1 h2
      exact ⟨[], l, ls, rfl, by simp, h1, h2⟩

lemma processLines_skip (fname : String) (pre : List String)
    (hpre : ∀ p ∈ pre, jsTrim p = "") : ∀ (rest : List String) cur col,
    processLines fname (pre ++ rest) cur col = processLines fname rest cur col := by
  induction pre with
  | nil => intro rest cur col; rfl
  | cons p pre ih =>
    intro rest cur col
    have hp : jsTrim p = "" := hpre p (List.mem_cons_self _ _)
    rw [List.cons_append]
    show processLines fname (p :: (pre ++ rest)) cur col = _
    simp only [processLines, hp, if_pos]
    exact ih (fun q hq => hpre q (List.mem_cons_of_mem _ hq)) rest cur col

lemma processLines_collect (fname : String) : ∀ (rest : List String) (e : LogData),
    (∀ x ∈ nonEmptyTrimmed rest, parseLogLine x = none ∧ isStackTraceLine x = true) →
    processLines fname rest (some e) true
      = [{ e with message := e.message ++ joinedNL (nonEmptyTrimmed rest) }] := by
  intro rest
  induction rest with
  | nil =>
    intro e _
    simp [processLines, nonEmptyTrimmed, joinedNL]
  | cons l rest ih =>
    intro e h
    by_cases he : jsTrim l = ""
    · have hstep : processLines fname (l :: rest) (some e) true
          = processLines fname rest (some e) true := by
        simp only [processLines, he, if_pos]
      have hne2 : nonEmptyTrimmed (l :: rest) = nonEmptyTrimmed rest := by
        rw [nonEmptyTrimmed, if_pos he]
      rw [hstep, hne2]
      exact ih e (by rw [hne2] at h; exact h)
    · have hmem : jsTrim l ∈ nonEmptyTrimmed (l :: rest) := by
        rw [nonEmptyTrimmed, if_neg he]
        exact List.mem_cons_self _ _
      obtain ⟨hparse, hstack⟩ := h _ hmem
      have hrest : ∀ x ∈ nonEmptyTrimmed rest,
          parseLogLine x = none ∧ isStackTraceLine x = true := by
        intro x hx
        refine h x ?_
        rw [nonEmptyTrimmed, if_neg he]
        exact List.mem_cons_of_mem _ hx
      have hstep : processLines fname (l :: rest) (some e) true
          = processLines fname rest
              (some { e with message := e.message ++ "\n" ++ jsTrim l }) true := by
        simp [processLines, he, hparse, hstack]
      rw [hstep, ih _ hrest, nonEmptyTrimmed, if_neg he, joinedNL]
      simp [String.append_assoc]

/-- C1: a file whose non-empty trimmed lines are one recognized header
followed by continuation candidates (lines that are not header-shaped and
match a stack-trace pattern) parses to exactly one entry whose message is
the header remainder followed by the trimmed continuation lines joined by
newline, in original order; the entry is emitted at end of file. -/
theorem parser_single_entry (fname : String) (ls : List String) (hline : String)
    (cs : List String) (pr : ParsedHeader) (lvl : Level)
    (h1 : nonEmptyTrimmed ls = hline :: cs)
    (h2 : parseLogLine hline = some pr)
    (h3 : normalizeLogLevel pr.level = some lvl)
    (h4 : ∀ c ∈ cs, parseLogLine c = none ∧ isStackTraceLine c = true) :
    parseFileLines fname ls = [⟨pr.timestamp, pr.message ++ joinedNL cs, fname, lvl⟩] := by
  obtain ⟨pre, l, rest, hsplit, hpre, hl, hrest⟩ := nonEmptyTrimmed_decomp ls hline cs h1
  subst hsplit
  rw [parseFileLines, processLines_skip fname pre hpre]
  have hne : jsTrim l ≠ "" := by
    intro h0
    have h9 : hline = "" := hl.symm.trans h0
    rw [h9] at h2
    have h10 : parseLogLine "" = none := rfl
    rw [h10] at h2
    exact Option.noConfusion h2
  have hlne : hline ≠ "" := hl ▸ hne
  have hstep : processLines fname (l :: rest) none false
      = processLines fname rest (some ⟨pr.timestamp, pr.message, fname, lvl⟩) true := by
    simp [processLines, hl, h2, h3, hlne]
  rw [hstep]
  have hconts : ∀ x ∈ nonEmptyTrimmed rest,
      parseLogLine x = none ∧ isStackTraceLine x = true := by
    intro x hx
    exact h4 x (hrest ▸ hx)
  rw [processLines_collect fname rest _ hconts, hrest]

theorem parser_single_entry_witness :
    parseFileLines "f" ["2025-04-17 08:21:24.838 +02:00 [ERR] Boom", "at Foo.Bar()"]
      = [⟨1744870884838, "Boom" ++ joinedNL ["at Foo.Bar()"], "f", Level.err⟩] :=
  parser_single_entry "f" _ "2025-04-17 08:21:24.838 +02:00 [ERR] Boom" ["at Foo.Bar()"]
    ⟨1744870884838, "ERR", "Boom"⟩ Level.err (by decide) (by decide) (by decide) (by decide)

/-! ### Plain-line bridging lookahead (C3) -/

/-- C3 counterexample: after the header `... [ERR] Boom`, the plain line
`plain line` is followed by a blank physical line and then by `at x`.  The
next NON-EMPTY trimmed line, `at x`, is a continuation candidate, so the
claim requires the plain line to be appended; but the code's lookahead is
`lines[index + 1]` — the blank physical line — so collection stops and the
emitted message is just `Boom`. -/
theorem plain_bridge_cex :
    nonEmptyTrimmed ["plain line", "", "at x"] = ["plain line", "at x"] ∧
    isStackTraceLine "at x" = true ∧
    parseLogLine "plain line" = none ∧
    (parseFileLines "f"
        ["2025-04-17 08:21:24.838 +02:00 [ERR] Boom", "plain line", "", "at x"]).map
      LogData.message = ["Boom"] := by
  decide

/-- C3 amended: while an entry is open and collecting, a PlainText line
(non-empty trimmed, not header-shaped, matching no stack-trace pattern) is
appended exactly when the immediately following PHYSICAL line, trimmed, is
non-empty and matches a stack-trace pattern; an intervening blank physical
line stops collection even when the next non-empty line is a continuation
candidate, and the plain line is then discarded without starting a new entry
(the open entry survives and is emitted at end of file). -/
theorem plain_bridge_physical (fname hdr p c : String) (pr : ParsedHeader) (lvl : Level)
    (hh : parseLogLine (jsTrim hdr) = some pr)
    (hlvl : normalizeLogLevel pr.level = some lvl)
    (hpne : jsTrim p ≠ "")
    (hpparse : parseLogLine (jsTrim p) = none)
    (hpstack : isStackTraceLine (jsTrim p) = false)
    (hcne : jsTrim c ≠ "")
    (hcparse : parseLogLine (jsTrim c) = none)
    (hcstack : isStackTraceLine (jsTrim c) = true) :
    processLines fname [hdr, p, c] none false
      = [⟨pr.timestamp, pr.message ++ "\n" ++ jsTrim p ++ "\n" ++ jsTrim c, fname, lvl⟩] ∧
    processLines fname [hdr, p, "", c] none false
      = [⟨pr.timestamp, pr.message, fname, lvl⟩] := by
  have hhne : jsTrim hdr ≠ "" := by
    intro h0
    rw [h0] at hh
    have h10 : parseLogLine "" = none := rfl
    rw [h10] at hh
    exact Option.noConfusion hh
  have h0 : jsTrim "" = "" := rfl
  constructor
  · have s1 : processLines fname [hdr, p, c] none false
        = processLines fname [p, c] (some ⟨pr.timestamp, pr.message, fname, lvl⟩) true := by
      simp [processLines, hhne, hh, hlvl]
    have s2 : processLines fname [p, c] (some ⟨pr.timestamp, pr.message, fname, lvl⟩) true
        = processLines fname [c]
            (some ⟨pr.timestamp, pr.message ++ "\n" ++ jsTrim p, fname, lvl⟩) true := by
      simp [processLines, hpne, hpparse, hpstack, hcne, hcstack]
    have s3 : processLines fname [c]
          (some ⟨pr.timestamp, pr.message ++ "\n" ++ jsTrim p, fname, lvl⟩) true
        = [⟨pr.timestamp, pr.message ++ "\n" ++ jsTrim p ++ "\n" ++ jsTrim c, fname, lvl⟩] := by
      simp [processLines, hcne, hcparse, hcstack]
    rw [s1, s2, s3]
  · have s1 : processLines fname [hdr, p, "", c] none false
        = processLines fname [p, "", c] (some ⟨pr.timestamp, pr.message, fname, lvl⟩) true := by
      simp [processLines, hhne, hh, hlvl]
    have s2 : processLines fname [p, "", c] (some ⟨pr.timestamp, pr.message, fname, lvl⟩) true
        = processLines fname ["", c] (some ⟨pr.timestamp, pr.message, fname, lvl⟩) false := by
      simp [processLines, hpne, hpparse, hpstack, h0]
    have s3 : processLines fname ["", c] (some ⟨pr.timestamp, pr.message, fname, lvl⟩) false
        = processLines fname [c] (some ⟨pr.timestamp, pr.message, fname, lvl⟩) false := by
      simp [processLines, h0]
    have s4 : processLines fname [c] (some ⟨pr.timestamp, pr.message, fname, lvl⟩) false
        = [⟨pr.timestamp, pr.message, fname, lvl⟩] := by
      simp [processLines, hcne, hcparse]
    rw [s1, s2, s3, s4]

theorem plain_bridge_physical_witness :
    processLines "f" ["2025-04-17 08:21:24.838 +02:00 [ERR] Boom", "plain line", "at x"]
        none false
      = [⟨1744870884838,
          "Boom" ++ "\n" ++ jsTrim "plain line" ++ "\n" ++ jsTrim "at x", "f", Level.err⟩] ∧
    processLines "f" ["2025-04-17 08:21:24.838 +02:00 [ERR] Boom", "plain line", "", "at x"]
        none false
      = [⟨1744870884838, "Boom", "f", Level.err⟩] :=
  plain_bridge_physical "f" "2025-04-17 08:21:24.838 +02:00 [ERR] Boom" "plain line" "at x"
    ⟨1744870884838, "ERR", "Boom"⟩ Level.err (by decide) (by decide) (by decide) (by decide)
    (by decide) (by decide) (by decide) (by decide)
